import Mathlib

/-!
Verification of the Brainfuck interpreter core (`src/bf.c`) of the
smallutils repository, against its natural-language specification.

The interpreter is shallowly embedded: the program is a `List Char`
(the byte buffer filled by `cread`), the tape is a function `Nat → Nat`
holding byte values (kept below 256 by every write), and the dispatch
loop of `main` is a fuel-indexed step function.  The bracket lookups
`flookup` and `blookup` are embedded as pure scans over the program
list, exactly mirroring the pointer walks in the source.

Two aspects are modelled from the spec rather than the source, because
the source has no corresponding code (the spec presents both as safety
additions over the source's undefined behaviour):

* the data-pointer bounds policy (spec §4.3/§7): `step` faults instead
  of moving `dp` outside `[0, capacity)`;
* the loader validation (spec §4.1): `load` performs the nesting-counter
  balance check (`endDepth`) and the size check, returning a `LoadError`.

Everything else — the halting test `*ip != '\0'`, the wraparound cell
arithmetic, the `,` behaviour at end of stream (`getchar()` returning
`EOF = -1`, stored as the byte 255), the bracket-jump targets being the
matching bracket itself (not one past it), and comment bytes being
retained and skipped — follows the source.
-/

namespace BF

/-- Tape and program capacity, 30000 in the source. -/
def capacity : Nat := 30000

/-- The NUL byte: `main` runs `while (*ip != '\0')`, so this byte is the
halting sentinel of the source. -/
def nul : Char := Char.ofNat 0

/-- The byte stored by `*dp = getchar()` at end of stream: `getchar()`
returns `EOF = -1`, which as an unsigned byte is 255. -/
def eofByte : Nat := 255

/-- Cell increment `++(*dp)` with 8-bit wraparound. -/
def bumpUp (v : Nat) : Nat := (v + 1) % 256

/-- Cell decrement `--(*dp)` with 8-bit wraparound. -/
def bumpDown (v : Nat) : Nat := (v + 255) % 256

/-- Pointwise update of the tape function. -/
def writeTape (t : Nat → Nat) (a v : Nat) : Nat → Nat :=
  fun x => if x = a then v else t x

/-- The execution-engine state: instruction pointer, data pointer, tape,
and the two runtime byte streams. -/
structure State where
  ip : Nat
  dp : Nat
  tape : Nat → Nat
  input : List Nat
  output : List Nat

/-- Result of one dispatch step: the next state, or a fault (recording
the offending instruction index and data pointer, per spec §7). -/
inductive StepRes where
  | next (s : State)
  | fault (ip dp : Nat)

/-- Control status of a (fuel-bounded) run. -/
inductive Status where
  | running
  | halted
  | faulted
deriving DecidableEq

/-- Reading the code buffer at an index: past the loaded bytes the
buffer is zero-filled (`memset` in `cread`), so out-of-range reads
yield the NUL byte. -/
def fetch (p : List Char) (i : Nat) : Char := p.getD i nul

/-- Forward scan of `flookup`: relative position of the first `]` at
nesting depth 0 in the remaining list, `none` if the scan runs off the
buffer (undefined behaviour in the source). -/
def scanF : List Char → Nat → Option Nat
  | [], _ => none
  | c :: rest, d =>
    if c = ']' then
      if d = 0 then some 0 else (scanF rest (d - 1)).map (fun j => j + 1)
    else if c = '[' then (scanF rest (d + 1)).map (fun j => j + 1)
    else (scanF rest d).map (fun j => j + 1)

/-- Backward scan of `blookup`, expressed as a forward scan over the
reversed prefix: relative position of the first `[` at nesting depth 0. -/
def scanB : List Char → Nat → Option Nat
  | [], _ => none
  | c :: rest, d =>
    if c = '[' then
      if d = 0 then some 0 else (scanB rest (d - 1)).map (fun j => j + 1)
    else if c = ']' then (scanB rest (d + 1)).map (fun j => j + 1)
    else (scanB rest d).map (fun j => j + 1)

/-- `flookup` from the source: starting at a `[` at index `i`, the index
of the matching `]` (the first `]` at relative depth 0 after `i`). -/
def flookup (p : List Char) (i : Nat) : Option Nat :=
  (scanF (p.drop (i + 1)) 0).map (fun j => i + 1 + j)

/-- `blookup` from the source: starting at a `]` at index `i`, the index
of the matching `[` (the first `[` at relative depth 0 before `i`). -/
def blookup (p : List Char) (i : Nat) : Option Nat :=
  (scanB ((p.take i).reverse) 0).map (fun j => i - 1 - j)

/-- Nesting-counter scan of spec §4.1: final counter value if the
counter never goes negative, `none` if an unmatched `]` drives it
negative. -/
def endDepth : List Char → Nat → Option Nat
  | [], d => some d
  | c :: rest, d =>
    if c = '[' then endDepth rest (d + 1)
    else if c = ']' then
      match d with
      | 0 => none
      | e + 1 => endDepth rest e
    else endDepth rest d

/-- A program is balanced when the nesting counter never goes negative
and ends at zero. -/
abbrev balanced (p : List Char) : Prop := endDepth p 0 = some 0

/-- Load-time failures of spec §7. -/
inductive LoadError where
  | TooLarge
  | UnbalancedBrackets
deriving DecidableEq

/-- Modelled from the spec: the source's `cread` copies the byte stream
verbatim with no validation; spec §4.1 adds the size check and the
nesting-counter balance check, returning a `LoadError` on failure. -/
def load (bytes : List Char) : Except LoadError (List Char) :=
  if capacity < bytes.length then .error .TooLarge
  else if endDepth bytes 0 = some 0 then .ok bytes
  else .error .UnbalancedBrackets

/-- One dispatch step of the `switch` in `main`.  The arithmetic, I/O,
bracket, and comment cases follow the source; the `<`/`>` bounds checks
are modelled from the spec (§4.3 dp bounds policy — the source moves
`dp` unchecked, which is undefined behaviour), and a failed bracket
lookup (unreachable on balanced programs) likewise faults instead of
reading past the buffer. -/
def step (p : List Char) (s : State) : StepRes :=
  if fetch p s.ip = '>' then
    if s.dp + 1 < capacity then .next { s with dp := s.dp + 1, ip := s.ip + 1 }
    else .fault s.ip s.dp
  else if fetch p s.ip = '<' then
    if 0 < s.dp then .next { s with dp := s.dp - 1, ip := s.ip + 1 }
    else .fault s.ip s.dp
  else if fetch p s.ip = '+' then
    .next { s with tape := writeTape s.tape s.dp (bumpUp (s.tape s.dp)), ip := s.ip + 1 }
  else if fetch p s.ip = '-' then
    .next { s with tape := writeTape s.tape s.dp (bumpDown (s.tape s.dp)), ip := s.ip + 1 }
  else if fetch p s.ip = '.' then
    .next { s with output := s.output ++ [s.tape s.dp], ip := s.ip + 1 }
  else if fetch p s.ip = ',' then
    match s.input with
    | [] => .next { s with tape := writeTape s.tape s.dp eofByte, input := [], ip := s.ip + 1 }
    | b :: rest => .next { s with tape := writeTape s.tape s.dp (b % 256), input := rest, ip := s.ip + 1 }
  else if fetch p s.ip = '[' then
    if s.tape s.dp = 0 then
      match flookup p s.ip with
      | some j => .next { s with ip := j }
      | none => .fault s.ip s.dp
    else .next { s with ip := s.ip + 1 }
  else if fetch p s.ip = ']' then
    if s.tape s.dp = 0 then .next { s with ip := s.ip + 1 }
    else
      match blookup p s.ip with
      | some j => .next { s with ip := j }
      | none => .fault s.ip s.dp
  else .next { s with ip := s.ip + 1 }

/-- Dispatch step following the spec's §4.3 table to the letter: on a
taken `[` branch, `ip = forward-match(ip) + 1`, and on a taken `]`
branch, `ip = backward-match(ip) + 1` — one past the matching bracket,
where the source jumps onto the matching bracket itself.  All other
cases are identical to `step`. -/
def stepSpec (p : List Char) (s : State) : StepRes :=
  if fetch p s.ip = '>' then
    if s.dp + 1 < capacity then .next { s with dp := s.dp + 1, ip := s.ip + 1 }
    else .fault s.ip s.dp
  else if fetch p s.ip = '<' then
    if 0 < s.dp then .next { s with dp := s.dp - 1, ip := s.ip + 1 }
    else .fault s.ip s.dp
  else if fetch p s.ip = '+' then
    .next { s with tape := writeTape s.tape s.dp (bumpUp (s.tape s.dp)), ip := s.ip + 1 }
  else if fetch p s.ip = '-' then
    .next { s with tape := writeTape s.tape s.dp (bumpDown (s.tape s.dp)), ip := s.ip + 1 }
  else if fetch p s.ip = '.' then
    .next { s with output := s.output ++ [s.tape s.dp], ip := s.ip + 1 }
  else if fetch p s.ip = ',' then
    match s.input with
    | [] => .next { s with tape := writeTape s.tape s.dp eofByte, input := [], ip := s.ip + 1 }
    | b :: rest => .next { s with tape := writeTape s.tape s.dp (b % 256), input := rest, ip := s.ip + 1 }
  else if fetch p s.ip = '[' then
    if s.tape s.dp = 0 then
      match flookup p s.ip with
      | some j => .next { s with ip := j + 1 }
      | none => .fault s.ip s.dp
    else .next { s with ip := s.ip + 1 }
  else if fetch p s.ip = ']' then
    if s.tape s.dp = 0 then .next { s with ip := s.ip + 1 }
    else
      match blookup p s.ip with
      | some j => .next { s with ip := j + 1 }
      | none => .fault s.ip s.dp
  else .next { s with ip := s.ip + 1 }

/-- The dispatch loop `while (*ip != '\0')` of `main`, fuel-bounded and
parametric in the step function.  The loop's exit test is checked before
every step, exactly as in the source. -/
def runWith (stp : List Char → State → StepRes) (p : List Char) : Nat → State → Status × State
  | 0, s => (.running, s)
  | n + 1, s =>
    if fetch p s.ip = nul then (.halted, s)
    else
      match stp p s with
      | .next s' => runWith stp p n s'
      | .fault _ _ => (.faulted, s)

/-- Initial engine state: ip = 0, dp = 0, zeroed tape, given input
stream, empty output. -/
def initState (input : List Nat) : State :=
  { ip := 0, dp := 0, tape := fun _ => 0, input := input, output := [] }

/-- The whole pipeline: load (with validation), then run the engine on
the loaded program; a load error is surfaced without entering the
engine. -/
def interpret (bytes : List Char) (input : List Nat) (fuel : Nat) :
    Except LoadError (Status × State) :=
  match load bytes with
  | .error e => .error e
  | .ok p => .ok (runWith step p fuel (initState input))

/-- The 8 recognized instruction bytes. -/
def instructionChars : List Char := ['>', '<', '+', '-', '.', ',', '[', ']']

/-- Instruction pointer of a step result, for stating step-level facts. -/
def ipAfter : StepRes → Option Nat
  | .next s => some s.ip
  | .fault _ _ => none

/-- Number of `[` bytes in a list. -/
def nOpen : List Char → Nat
  | [] => 0
  | c :: rest => (if c = '[' then 1 else 0) + nOpen rest

/-- Number of `]` bytes in a list. -/
def nClose : List Char → Nat
  | [] => 0
  | c :: rest => (if c = ']' then 1 else 0) + nClose rest

/-! ### Branch lemmas for the dispatch step -/

lemma step_nul (p : List Char) (s : State) (hc : fetch p s.ip = nul) :
    step p s = .next { s with ip := s.ip + 1 } := by
  simp [step, hc, nul]

lemma step_comment (p : List Char) (s : State) (h : fetch p s.ip ∉ instructionChars) :
    step p s = .next { s with ip := s.ip + 1 } := by
  simp [instructionChars] at h
  obtain ⟨h1, h2, h3, h4, h5, h6, h7, h8⟩ := h
  simp [step, h1, h2, h3, h4, h5, h6, h7, h8]

lemma step_open_taken (p : List Char) (s : State) (j : Nat) (hc : fetch p s.ip = '[')
    (h0 : s.tape s.dp = 0) (hj : flookup p s.ip = some j) :
    step p s = .next { s with ip := j } := by
  simp [step, hc, h0, hj]

lemma step_open_fall (p : List Char) (s : State) (hc : fetch p s.ip = '[')
    (h0 : s.tape s.dp ≠ 0) :
    step p s = .next { s with ip := s.ip + 1 } := by
  simp [step, hc, h0]

lemma step_close_taken (p : List Char) (s : State) (j : Nat) (hc : fetch p s.ip = ']')
    (h0 : s.tape s.dp ≠ 0) (hj : blookup p s.ip = some j) :
    step p s = .next { s with ip := j } := by
  simp [step, hc, h0, hj]

lemma step_close_fall (p : List Char) (s : State) (hc : fetch p s.ip = ']')
    (h0 : s.tape s.dp = 0) :
    step p s = .next { s with ip := s.ip + 1 } := by
  simp [step, hc, h0]

lemma step_dp_bound (p : List Char) (s s' : State) (h : step p s = .next s')
    (hdp : s.dp < capacity) : s'.dp < capacity := by
  unfold step at h
  split_ifs at h <;> (try split at h) <;> (try cases h) <;> simp_all <;> omega

lemma fault_stops (p : List Char) (s : State) (n i d : Nat)
    (h : step p s = .fault i d) : runWith step p (n + 1) s = (.faulted, s) := by
  have hnn : fetch p s.ip ≠ nul := by
    intro hc
    rw [step_nul p s hc] at h
    exact StepRes.noConfusion h
  unfold runWith
  rw [if_neg hnn, h]

/-! ### Claim C1 — data-pointer bounds policy (modelled from the spec) -/

/-- C1: the data pointer stays within `[0, capacity)`: every successful
step preserves `dp < capacity`; a `<` at `dp = 0` or a `>` at
`dp + 1 = capacity` makes that very step fault, reporting the offending
instruction index and data pointer; and the run loop stops at the
faulting step instead of wrapping or continuing. -/
theorem dp_bounds_policy (p : List Char) (s : State) (hdp : s.dp < capacity) :
    (∀ s', step p s = .next s' → s'.dp < capacity) ∧
    (fetch p s.ip = '<' → s.dp = 0 → step p s = .fault s.ip s.dp) ∧
    (fetch p s.ip = '>' → s.dp + 1 = capacity → step p s = .fault s.ip s.dp) ∧
    (∀ n i d, step p s = .fault i d → runWith step p (n + 1) s = (.faulted, s)) := by
  refine ⟨fun s' h => step_dp_bound p s s' h hdp, ?_, ?_,
    fun n i d h => fault_stops p s n i d h⟩
  · intro hc h0
    simp [step, hc, h0]
  · intro hc hcap
    simp [step, hc, show ¬ (s.dp + 1 < capacity) by omega]

/-- C1 witness: a program whose first instruction is `<` faults at step
one with the offending position. -/
theorem dp_bounds_policy_check : step ['<'] (initState []) = .fault 0 0 :=
  (dp_bounds_policy ['<'] (initState []) (by decide)).2.1 rfl rfl

/-! ### Claim C2 — unbalanced programs are rejected by the loader
(modelled from the spec) -/

/-- C2: any input byte stream (of loadable size) whose nesting counter
goes negative or ends non-zero is rejected by the loader with
`UnbalancedBrackets`, and the pipeline never enters the execution
engine: it surfaces the load error unchanged for every input stream and
fuel. -/
theorem unbalanced_rejected (bytes : List Char) (hlen : bytes.length ≤ capacity)
    (hub : ¬ balanced bytes) :
    load bytes = .error .UnbalancedBrackets ∧
    ∀ input fuel, interpret bytes input fuel = .error .UnbalancedBrackets := by
  have hload : load bytes = .error .UnbalancedBrackets := by
    unfold load
    rw [if_neg (by omega), if_neg hub]
  exact ⟨hload, fun input fuel => by unfold interpret; rw [hload]⟩

/-- C2 witness: the program consisting solely of `[` is rejected and
never reaches execution. -/
theorem unbalanced_rejected_check :
    load ['['] = .error .UnbalancedBrackets ∧
    ∀ input fuel, interpret ['['] input fuel = .error .UnbalancedBrackets :=
  unbalanced_rejected ['['] (by decide) (by decide)

/-! ### Claim C6 — cells are bytes with wraparound arithmetic -/

lemma bumpUp_iter (k v : Nat) (hv : v < 256) : bumpUp^[k] v = (v + k) % 256 := by
  induction k with
  | zero => simpa using (Nat.mod_eq_of_lt hv).symm
  | succ n ih =>
    rw [Function.iterate_succ_apply', ih]
    unfold bumpUp
    omega

lemma bumpDown_iter (k v : Nat) (hv : v < 256) : bumpDown^[k] v = (v + 255 * k) % 256 := by
  induction k with
  | zero => simpa using (Nat.mod_eq_of_lt hv).symm
  | succ n ih =>
    rw [Function.iterate_succ_apply', ih]
    unfold bumpDown
    omega

/-- C6: applying the `+` cell update 256 times returns any byte cell to
its original value, and symmetrically for `-`; the updates are exactly
arithmetic modulo 256, so 255 + 1 = 0 and 0 - 1 = 255. -/
theorem cell_wraparound (v : Nat) (hv : v < 256) :
    bumpUp^[256] v = v ∧ bumpDown^[256] v = v ∧ bumpUp 255 = 0 ∧ bumpDown 0 = 255 := by
  refine ⟨?_, ?_, by decide, by decide⟩
  · rw [bumpUp_iter 256 v hv]; omega
  · rw [bumpDown_iter 256 v hv]; omega

/-- C6 witness at the cell value 7. -/
theorem cell_wraparound_check :
    bumpUp^[256] 7 = 7 ∧ bumpDown^[256] 7 = 7 ∧ bumpUp 255 = 0 ∧ bumpDown 0 = 255 :=
  cell_wraparound 7 (by decide)

/-! ### Claim C5 — `,` at end of stream -/

/-- C5 counterexample: executing `,` with the input stream exhausted
stores 255 into the cell (the source runs `*dp = getchar()`, and
`getchar()` returns `EOF = -1`, i.e. the byte 255), not 0 as claimed. -/
theorem comma_eof_counterexample :
    (runWith step [','] 1 (initState [])).2.tape 0 = 255 ∧
    (runWith step [','] 1 (initState [])).2.ip = 1 ∧ (255 : Nat) ≠ 0 := by
  refine ⟨by decide, by decide, by decide⟩

/-- C5 amended: when `,` executes at end of stream the cell receives
the EOF byte 255 (the value `-1` stored as an unsigned byte), and ip is
incremented by 1. -/
theorem comma_eof_stores_eof (p : List Char) (s : State) (hc : fetch p s.ip = ',')
    (hi : s.input = []) :
    step p s = .next { s with tape := writeTape s.tape s.dp eofByte, input := [], ip := s.ip + 1 } ∧ eofByte = 255 :=
  ⟨by simp [step, hc, hi], rfl⟩

/-- C5 witness: the one-instruction program `,` on an empty input. -/
theorem comma_eof_stores_eof_check :
    step [','] (initState []) = .next { initState [] with
      tape := writeTape (initState []).tape 0 eofByte, input := [], ip := 1 } ∧
    eofByte = 255 :=
  comma_eof_stores_eof [','] (initState []) rfl rfl

/-! ### Claim C9 — comment bytes -/

/-- C9 counterexample: the NUL byte is not one of the 8 instructions,
yet executing it is not a no-op that advances ip — the dispatch loop
`while (*ip != '\0')` halts on it, leaving ip where it was. -/
theorem comment_nul_counterexample :
    nul ∉ instructionChars ∧
    (runWith step [nul] 1 (initState [])).1 = .halted ∧
    (runWith step [nul] 1 (initState [])).2.ip = 0 ∧ (0 : Nat) ≠ 0 + 1 := by
  refine ⟨by decide, by decide, by decide, by decide⟩

/-- C9 amended: the loader retains every input byte verbatim, and a
byte that is neither one of the 8 instructions nor NUL dispatches as a
no-op advancing ip by 1; a NUL byte instead halts the dispatch loop,
which checks for it before every step. -/
theorem comment_bytes_noop :
    (∀ bytes p, load bytes = .ok p → p = bytes) ∧
    (∀ (p : List Char) (s : State), fetch p s.ip ∉ instructionChars →
      fetch p s.ip ≠ nul → step p s = .next { s with ip := s.ip + 1 }) ∧
    (∀ (p : List Char) (s : State), fetch p s.ip = nul →
      ∀ n, runWith step p (n + 1) s = (.halted, s)) := by
  refine ⟨?_, ?_, ?_⟩
  · intro bytes p h
    unfold load at h
    split_ifs at h
    all_goals cases h
    rfl
  · intro p s h _
    exact step_comment p s h
  · intro p s hc n
    unfold runWith
    rw [if_pos hc]

/-- C9 witness: the non-instruction byte `x` dispatches as a no-op that
advances ip by 1. -/
theorem comment_bytes_noop_check :
    step ['x'] (initState []) = .next { initState [] with ip := 1 } :=
  comment_bytes_noop.2.1 ['x'] (initState []) (by decide) (by decide)

/-! ### Claim C4 — halting condition of the dispatch loop -/

/-- C4 counterexample: a loaded program whose first byte is NUL halts
immediately at ip = 0, although the loaded sequence has length 2 — the
loop `while (*ip != '\0')` stops at the first NUL byte, not at the end
of the loaded sequence. -/
theorem halt_nul_counterexample :
    (runWith step [nul, '+'] 1 (initState [])).1 = .halted ∧
    (runWith step [nul, '+'] 1 (initState [])).2.ip = 0 ∧
    ([nul, '+'] : List Char).length = 2 ∧ (0 : Nat) ≠ 2 := by
  refine ⟨by decide, by decide, by decide, by decide⟩

lemma fetch_mem (p : List Char) (i : Nat) (hi : i < p.length) : fetch p i ∈ p := by
  unfold fetch
  rw [List.getD_eq_getElem p nul hi]
  exact List.getElem_mem hi

lemma fetch_past_end (p : List Char) (i : Nat) (hi : p.length ≤ i) : fetch p i = nul :=
  List.getD_eq_default p nul hi

lemma fetch_lt_length (p : List Char) (i : Nat) (h : fetch p i ≠ nul) : i < p.length := by
  by_contra hge
  exact h (fetch_past_end p i (by omega))

/-- C4 amended: for a loaded program containing no NUL byte, the
dispatch loop's exit test succeeds exactly when ip has reached the end
of the loaded sequence (`ip = length`), and not before; in general the
loop halts exactly at the first NUL byte under ip (the buffer past the
loaded bytes is zero-filled, so running off the end also halts). -/
theorem halting_condition (p : List Char) (hnul : nul ∉ p) (s : State)
    (hip : s.ip ≤ p.length) :
    ((runWith step p 1 s).1 = .halted ↔ s.ip = p.length) ∧
    (fetch p s.ip = nul ↔ s.ip = p.length) := by
  have hfetch : fetch p s.ip = nul ↔ s.ip = p.length := by
    constructor
    · intro h
      by_contra hne
      have hlt : s.ip < p.length := by omega
      exact hnul (h ▸ fetch_mem p s.ip hlt)
    · intro h
      exact fetch_past_end p s.ip (by omega)
  refine ⟨?_, hfetch⟩
  rw [← hfetch]
  unfold runWith
  by_cases h : fetch p s.ip = nul
  · simp [h]
  · rw [if_neg h]
    simp only [h, iff_false]
    cases hstep : step p s with
    | next s' => simp [runWith]
    | fault i d => simp

/-- C4 witness: on the NUL-free program `+`, the loop exits at ip = 1,
the end of the loaded sequence. -/
theorem halting_condition_check :
    ((runWith step ['+'] 1 { initState [] with ip := 1 }).1 = .halted ↔ 1 = (['+'] : List Char).length) ∧
    (fetch ['+'] 1 = nul ↔ 1 = (['+'] : List Char).length) :=
  halting_condition ['+'] (by decide) { initState [] with ip := 1 } (by decide)

/-! ### Bracket-matching theory -/

lemma fetch_eq_getElem (p : List Char) (i : Nat) (h : i < p.length) : fetch p i = p[i] :=
  List.getD_eq_getElem p nul h

lemma fetch_drop (p : List Char) (m j : Nat) : fetch (p.drop m) j = fetch p (m + j) := by
  by_cases h : j < (p.drop m).length
  · rw [fetch_eq_getElem _ _ h, List.getElem_drop, fetch_eq_getElem]
  · have h1 : (p.drop m).length ≤ j := by omega
    have h2 : p.length ≤ m + j := by
      have := List.length_drop m p
      omega
    rw [fetch_past_end _ _ h1, fetch_past_end _ _ h2]

lemma fetch_take (p : List Char) (i j : Nat) (hj : j < i) : fetch (p.take i) j = fetch p j := by
  by_cases h : j < (p.take i).length
  · rw [fetch_eq_getElem _ _ h, List.getElem_take, fetch_eq_getElem]
  · have h1 : (p.take i).length ≤ j := by omega
    have h2 : p.length ≤ j := by
      simp only [List.length_take] at h1
      omega
    rw [fetch_past_end _ _ h1, fetch_past_end _ _ h2]

lemma fetch_reverse (p : List Char) (j : Nat) (hj : j < p.length) :
    fetch p.reverse j = fetch p (p.length - 1 - j) := by
  have h1 : j < p.reverse.length := by
    rw [List.length_reverse]
    exact hj
  rw [fetch_eq_getElem _ _ h1, List.getElem_reverse, fetch_eq_getElem]

lemma drop_fetch_cons (p : List Char) (i : Nat) (hi : i < p.length) :
    p.drop i = fetch p i :: p.drop (i + 1) := by
  rw [fetch_eq_getElem p i hi]
  exact List.drop_eq_getElem_cons hi

lemma endDepth_append (l₁ l₂ : List Char) (c : Nat) :
    endDepth (l₁ ++ l₂) c = (endDepth l₁ c).bind (fun d => endDepth l₂ d) := by
  induction l₁ generalizing c with
  | nil => simp [endDepth]
  | cons x rest ih =>
    by_cases h1 : x = '['
    · subst h1
      simp [endDepth, ih]
    · by_cases h2 : x = ']'
      · subst h2
        cases c with
        | zero => simp [endDepth]
        | succ e => simp [endDepth, ih]
      · simp [endDepth, h1, h2, ih]

lemma endDepth_counts (l : List Char) (c d : Nat) (h : endDepth l c = some d) :
    c + nOpen l = d + nClose l := by
  induction l generalizing c with
  | nil =>
    simp [endDepth] at h
    simp [nOpen, nClose, h]
  | cons x rest ih =>
    by_cases h1 : x = '['
    · subst h1
      simp [endDepth] at h
      have := ih (c + 1) h
      simp [nOpen, nClose]
      omega
    · by_cases h2 : x = ']'
      · subst h2
        cases c with
        | zero => simp [endDepth] at h
        | succ e =>
          simp [endDepth] at h
          have := ih e h
          simp [nOpen, nClose]
          omega
      · simp [endDepth, h1, h2] at h
        have := ih c h
        simp [nOpen, nClose, h1, h2]
        omega

lemma nOpen_append (l₁ l₂ : List Char) : nOpen (l₁ ++ l₂) = nOpen l₁ + nOpen l₂ := by
  induction l₁ with
  | nil => simp [nOpen]
  | cons x rest ih => simp [nOpen, ih]; omega

lemma nClose_append (l₁ l₂ : List Char) : nClose (l₁ ++ l₂) = nClose l₁ + nClose l₂ := by
  induction l₁ with
  | nil => simp [nClose]
  | cons x rest ih => simp [nClose, ih]; omega

lemma nOpen_reverse (l : List Char) : nOpen l.reverse = nOpen l := by
  induction l with
  | nil => rfl
  | cons x rest ih =>
    rw [List.reverse_cons, nOpen_append, ih]
    simp [nOpen]
    omega

lemma nClose_reverse (l : List Char) : nClose l.reverse = nClose l := by
  induction l with
  | nil => rfl
  | cons x rest ih =>
    rw [List.reverse_cons, nClose_append, ih]
    simp [nClose]
    omega

lemma scanF_finds (l : List Char) (d : Nat) (h : nOpen l + d + 1 ≤ nClose l) :
    ∃ j, scanF l d = some j ∧ j < l.length ∧ fetch l j = ']' := by
  induction l generalizing d with
  | nil => simp [nOpen, nClose] at h
  | cons c rest ih =>
    by_cases hc : c = ']'
    · subst hc
      cases d with
      | zero => exact ⟨0, by simp [scanF], by simp, by simp [fetch]⟩
      | succ e =>
        have h' : nOpen rest + e + 1 ≤ nClose rest := by
          simp [nOpen, nClose] at h
          omega
        obtain ⟨j, hj, hlen, hch⟩ := ih e h'
        refine ⟨j + 1, by simp [scanF, hj], by simp; omega, ?_⟩
        rw [show fetch (']' :: rest) (j + 1) = fetch rest j from List.getD_cons_succ]
        exact hch
    · by_cases hc2 : c = '['
      · subst hc2
        have h' : nOpen rest + (d + 1) + 1 ≤ nClose rest := by
          simp [nOpen, nClose] at h ⊢
          omega
        obtain ⟨j, hj, hlen, hch⟩ := ih (d + 1) h'
        refine ⟨j + 1, by simp [scanF, hj], by simp; omega, ?_⟩
        rw [show fetch ('[' :: rest) (j + 1) = fetch rest j from List.getD_cons_succ]
        exact hch
      · have h' : nOpen rest + d + 1 ≤ nClose rest := by
          simp [nOpen, nClose, hc, hc2] at h ⊢
          omega
        obtain ⟨j, hj, hlen, hch⟩ := ih d h'
        refine ⟨j + 1, by simp [scanF, hj, hc, hc2], by simp; omega, ?_⟩
        rw [show fetch (c :: rest) (j + 1) = fetch rest j from List.getD_cons_succ]
        exact hch

lemma scanB_finds (l : List Char) (d : Nat) (h : nClose l + d + 1 ≤ nOpen l) :
    ∃ j, scanB l d = some j ∧ j < l.length ∧ fetch l j = '[' := by
  induction l generalizing d with
  | nil => simp [nOpen, nClose] at h
  | cons c rest ih =>
    by_cases hc : c = '['
    · subst hc
      cases d with
      | zero => exact ⟨0, by simp [scanB], by simp, by simp [fetch]⟩
      | succ e =>
        have h' : nClose rest + e + 1 ≤ nOpen rest := by
          simp [nOpen, nClose] at h
          omega
        obtain ⟨j, hj, hlen, hch⟩ := ih e h'
        refine ⟨j + 1, by simp [scanB, hj], by simp; omega, ?_⟩
        rw [show fetch ('[' :: rest) (j + 1) = fetch rest j from List.getD_cons_succ]
        exact hch
    · by_cases hc2 : c = ']'
      · subst hc2
        have h' : nClose rest + (d + 1) + 1 ≤ nOpen rest := by
          simp [nOpen, nClose] at h ⊢
          omega
        obtain ⟨j, hj, hlen, hch⟩ := ih (d + 1) h'
        refine ⟨j + 1, by simp [scanB, hj], by simp; omega, ?_⟩
        rw [show fetch (']' :: rest) (j + 1) = fetch rest j from List.getD_cons_succ]
        exact hch
      · have h' : nClose rest + d + 1 ≤ nOpen rest := by
          simp [nOpen, nClose, hc, hc2] at h ⊢
          omega
        obtain ⟨j, hj, hlen, hch⟩ := ih d h'
        refine ⟨j + 1, by simp [scanB, hj, hc, hc2], by simp; omega, ?_⟩
        rw [show fetch (c :: rest) (j + 1) = fetch rest j from List.getD_cons_succ]
        exact hch

lemma balanced_split (p : List Char) (hb : balanced p) (i : Nat) (hi : i < p.length) :
    ∃ c, endDepth (p.take i) 0 = some c ∧ endDepth (fetch p i :: p.drop (i + 1)) c = some 0 := by
  have hsplit : p.take i ++ (fetch p i :: p.drop (i + 1)) = p := by
    rw [← drop_fetch_cons p i hi]
    exact List.take_append_drop i p
  have hb' : endDepth (p.take i ++ (fetch p i :: p.drop (i + 1))) 0 = some 0 := by
    rw [hsplit]
    exact hb
  rw [endDepth_append] at hb'
  exact Option.bind_eq_some.mp hb'

lemma flookup_matches (p : List Char) (i : Nat) (hb : balanced p) (hc : fetch p i = '[') :
    ∃ j, flookup p i = some j ∧ i < j ∧ j < p.length ∧ fetch p j = ']' := by
  have hi : i < p.length := fetch_lt_length p i (by rw [hc]; decide)
  obtain ⟨c, hpre, hsuf⟩ := balanced_split p hb i hi
  rw [hc] at hsuf
  have hsuf' : endDepth (p.drop (i + 1)) (c + 1) = some 0 := by
    simpa [endDepth] using hsuf
  have hcount := endDepth_counts _ _ _ hsuf'
  obtain ⟨j', hscan, hlen, hch⟩ := scanF_finds (p.drop (i + 1)) 0 (by omega)
  have hdlen : (p.drop (i + 1)).length = p.length - (i + 1) := List.length_drop _ _
  refine ⟨i + 1 + j', ?_, by omega, by omega, ?_⟩
  · unfold flookup
    rw [hscan]
    rfl
  · rw [← fetch_drop p (i + 1) j']
    exact hch

lemma blookup_matches (p : List Char) (i : Nat) (hb : balanced p) (hc : fetch p i = ']') :
    ∃ j, blookup p i = some j ∧ j < i ∧ j < p.length ∧ fetch p j = '[' := by
  have hi : i < p.length := fetch_lt_length p i (by rw [hc]; decide)
  obtain ⟨c, hpre, hsuf⟩ := balanced_split p hb i hi
  rw [hc] at hsuf
  have hc1 : ∃ e, c = e + 1 ∧ endDepth (p.drop (i + 1)) e = some 0 := by
    cases c with
    | zero => simp [endDepth] at hsuf
    | succ e => exact ⟨e, rfl, by simpa [endDepth] using hsuf⟩
  obtain ⟨e, hce, _⟩ := hc1
  have hcount := endDepth_counts _ _ _ hpre
  have htlen : (p.take i).length = i := by
    rw [List.length_take]
    omega
  have hrlen : ((p.take i).reverse).length = i := by
    rw [List.length_reverse]
    exact htlen
  obtain ⟨j', hscan, hlen, hch⟩ := scanB_finds ((p.take i).reverse) 0 (by
    rw [nOpen_reverse, nClose_reverse]
    omega)
  rw [hrlen] at hlen
  refine ⟨i - 1 - j', ?_, by omega, by omega, ?_⟩
  · unfold blookup
    rw [hscan]
    rfl
  · rw [fetch_reverse _ _ (by omega : j' < (p.take i).length)] at hch
    rw [htlen] at hch
    rw [fetch_take p i (i - 1 - j') (by omega)] at hch
    exact hch

/-! ### Claim C8 — jump resolution is total on balanced programs -/

/-- C8: on a balanced program, `flookup` at any `[` and `blookup` at
any `]` are (pure, terminating) functions that return an index inside
the program buffer — the matching bracket — so the not-found case
(`none`) is never reached. -/
theorem bracket_lookup_total (p : List Char) (hb : balanced p) (i : Nat) :
    (fetch p i = '[' → ∃ j, flookup p i = some j ∧ i < j ∧ j < p.length ∧ fetch p j = ']') ∧
    (fetch p i = ']' → ∃ j, blookup p i = some j ∧ j < i ∧ j < p.length ∧ fetch p j = '[') :=
  ⟨flookup_matches p i hb, blookup_matches p i hb⟩

/-- C8 witness: the matching `]` of the leading `[` of `[]` is found at
index 1, inside the buffer. -/
theorem bracket_lookup_total_check :
    ∃ j, flookup ['[', ']'] 0 = some j ∧ 0 < j ∧ j < (['[', ']'] : List Char).length ∧
      fetch ['[', ']'] j = ']' :=
  (bracket_lookup_total ['[', ']'] (by decide) 0).1 rfl

/-! ### Claim C3 — effect of one dispatch step at a bracket -/

/-- C3 counterexample: on the balanced program `[]` with the cell at 0,
one dispatch step at the `[` sets ip to 1, the index of the matching
`]` itself (`ip = flookup(ip)` in the source), not to
forward-match + 1 = 2 as the claim states. -/
theorem dispatch_effect_counterexample :
    ipAfter (step ['[', ']'] (initState [])) = some 1 ∧
    flookup ['[', ']'] 0 = some 1 ∧ (1 : Nat) ≠ 1 + 1 := by
  refine ⟨by decide, by decide, by decide⟩

/-- C3 amended: on a balanced program, a dispatch step at `[` with the
cell 0 sets ip to forward-match(ip) — the index of the matching `]`
itself — and a step at `]` with the cell non-zero sets ip to
backward-match(ip), the index of the matching `[`; in the other cases
ip is incremented by 1. -/
theorem dispatch_effect (p : List Char) (hb : balanced p) (s : State) :
    (fetch p s.ip = '[' → s.tape s.dp = 0 →
      ∃ j, flookup p s.ip = some j ∧ step p s = .next { s with ip := j }) ∧
    (fetch p s.ip = '[' → s.tape s.dp ≠ 0 → step p s = .next { s with ip := s.ip + 1 }) ∧
    (fetch p s.ip = ']' → s.tape s.dp ≠ 0 →
      ∃ j, blookup p s.ip = some j ∧ step p s = .next { s with ip := j }) ∧
    (fetch p s.ip = ']' → s.tape s.dp = 0 → step p s = .next { s with ip := s.ip + 1 }) := by
  refine ⟨?_, fun hc h0 => step_open_fall p s hc h0, ?_, fun hc h0 => step_close_fall p s hc h0⟩
  · intro hc h0
    obtain ⟨j, hj, _, _, _⟩ := flookup_matches p s.ip hb hc
    exact ⟨j, hj, step_open_taken p s j hc h0 hj⟩
  · intro hc h0
    obtain ⟨j, hj, _, _, _⟩ := blookup_matches p s.ip hb hc
    exact ⟨j, hj, step_close_taken p s j hc h0 hj⟩

/-- C3 witness: the taken `[` branch of `[]` jumps onto the matching
`]`. -/
theorem dispatch_effect_check :
    ∃ j, flookup ['[', ']'] 0 = some j ∧
      step ['[', ']'] (initState []) = .next { initState [] with ip := j } :=
  (dispatch_effect ['[', ']'] (by decide) (initState [])).1 rfl rfl

/-! ### Claim C7 — runs of `,`-free programs do not depend on the
input stream -/

lemma run_unfold (stp : List Char → State → StepRes) (p : List Char) (n : Nat) (s : State) :
    runWith stp p (n + 1) s =
      if fetch p s.ip = nul then (.halted, s)
      else
        match stp p s with
        | .next s' => runWith stp p n s'
        | .fault _ _ => (.faulted, s) := rfl

lemma fetch_ne_comma (p : List Char) (hc : ',' ∉ p) (i : Nat) : fetch p i ≠ ',' := by
  intro h
  exact hc (h ▸ fetch_mem p i (fetch_lt_length p i (by rw [h]; decide)))

lemma step_input_indep (p : List Char) (hc : ',' ∉ p) (s : State) (inp : List Nat) :
    (∀ t, step p s = .next t →
      step p { s with input := inp } = .next { t with input := inp }) ∧
    (∀ i d, step p s = .fault i d → step p { s with input := inp } = .fault i d) := by
  have hcm : fetch p s.ip ≠ ',' := fetch_ne_comma p hc s.ip
  constructor
  · intro t h
    by_cases h1 : fetch p s.ip = '>'
    · by_cases hcap : s.dp + 1 < capacity
      · rw [show step p s = .next { s with dp := s.dp + 1, ip := s.ip + 1 } from by
          simp [step, h1, hcap]] at h
        injection h with h
        subst h
        show step p _ = _
        simp [step, h1, hcap]
      · rw [show step p s = .fault s.ip s.dp from by simp [step, h1, hcap]] at h
        simp at h
    · by_cases h2 : fetch p s.ip = '<'
      · by_cases hdp : 0 < s.dp
        · rw [show step p s = .next { s with dp := s.dp - 1, ip := s.ip + 1 } from by
            simp [step, h1, h2, hdp]] at h
          injection h with h
          subst h
          show step p _ = _
          simp [step, h1, h2, hdp]
        · rw [show step p s = .fault s.ip s.dp from by simp [step, h1, h2, hdp]] at h
          simp at h
      · by_cases h3 : fetch p s.ip = '+'
        · rw [show step p s = .next { s with
              tape := writeTape s.tape s.dp (bumpUp (s.tape s.dp)), ip := s.ip + 1 } from by
            simp [step, h1, h2, h3]] at h
          injection h with h
          subst h
          show step p _ = _
          simp [step, h1, h2, h3]
        · by_cases h4 : fetch p s.ip = '-'
          · rw [show step p s = .next { s with
                tape := writeTape s.tape s.dp (bumpDown (s.tape s.dp)), ip := s.ip + 1 } from by
              simp [step, h1, h2, h3, h4]] at h
            injection h with h
            subst h
            show step p _ = _
            simp [step, h1, h2, h3, h4]
          · by_cases h5 : fetch p s.ip = '.'
            · rw [show step p s = .next { s with
                  output := s.output ++ [s.tape s.dp], ip := s.ip + 1 } from by
                simp [step, h1, h2, h3, h4, h5]] at h
              injection h with h
              subst h
              show step p _ = _
              simp [step, h1, h2, h3, h4, h5]
            · by_cases h7 : fetch p s.ip = '['
              · by_cases h0 : s.tape s.dp = 0
                · cases hj : flookup p s.ip with
                  | none =>
                    rw [show step p s = .fault s.ip s.dp from by
                      simp [step, h1, h2, h3, h4, h5, hcm, h7, h0, hj]] at h
                    simp at h
                  | some j =>
                    rw [step_open_taken p s j h7 h0 hj] at h
                    injection h with h
                    subst h
                    exact step_open_taken p _ j h7 h0 hj
                · rw [step_open_fall p s h7 h0] at h
                  injection h with h
                  subst h
                  exact step_open_fall p _ h7 h0
              · by_cases h8 : fetch p s.ip = ']'
                · by_cases h0 : s.tape s.dp = 0
                  · rw [step_close_fall p s h8 h0] at h
                    injection h with h
                    subst h
                    exact step_close_fall p _ h8 h0
                  · cases hj : blookup p s.ip with
                    | none =>
                      rw [show step p s = .fault s.ip s.dp from by
                        simp [step, h1, h2, h3, h4, h5, hcm, h7, h8, h0, hj]] at h
                      simp at h
                    | some j =>
                      rw [step_close_taken p s j h8 h0 hj] at h
                      injection h with h
                      subst h
                      exact step_close_taken p _ j h8 h0 hj
                · rw [show step p s = .next { s with ip := s.ip + 1 } from by
                    simp [step, h1, h2, h3, h4, h5, hcm, h7, h8]] at h
                  injection h with h
                  subst h
                  show step p _ = _
                  simp [step, h1, h2, h3, h4, h5, hcm, h7, h8]
  · intro i d h
    by_cases h1 : fetch p s.ip = '>'
    · by_cases hcap : s.dp + 1 < capacity
      · rw [show step p s = .next { s with dp := s.dp + 1, ip := s.ip + 1 } from by
          simp [step, h1, hcap]] at h
        simp at h
      · rw [show step p s = .fault s.ip s.dp from by simp [step, h1, hcap]] at h
        injection h with hi hd
        subst hi; subst hd
        show step p _ = _
        simp [step, h1, hcap]
    · by_cases h2 : fetch p s.ip = '<'
      · by_cases hdp : 0 < s.dp
        · rw [show step p s = .next { s with dp := s.dp - 1, ip := s.ip + 1 } from by
            simp [step, h1, h2, hdp]] at h
          simp at h
        · rw [show step p s = .fault s.ip s.dp from by simp [step, h1, h2, hdp]] at h
          injection h with hi hd
          subst hi; subst hd
          show step p _ = _
          simp [step, h1, h2, hdp]
      · by_cases h7 : fetch p s.ip = '['
        · by_cases h0 : s.tape s.dp = 0
          · cases hj : flookup p s.ip with
            | none =>
              rw [show step p s = .fault s.ip s.dp from by
                simp [step, h1, h2, hcm, h7, h0, hj]] at h
              injection h with hi hd
              subst hi; subst hd
              show step p _ = _
              simp [step, h1, h2, hcm, h7, h0, hj]
            | some j =>
              rw [step_open_taken p s j h7 h0 hj] at h
              simp at h
          · rw [step_open_fall p s h7 h0] at h
            simp at h
        · by_cases h8 : fetch p s.ip = ']'
          · by_cases h0 : s.tape s.dp = 0
            · rw [step_close_fall p s h8 h0] at h
              simp at h
            · cases hj : blookup p s.ip with
              | none =>
                rw [show step p s = .fault s.ip s.dp from by
                  simp [step, h1, h2, hcm, h7, h8, h0, hj]] at h
                injection h with hi hd
                subst hi; subst hd
                show step p _ = _
                simp [step, h1, h2, hcm, h7, h8, h0, hj]
              | some j =>
                rw [step_close_taken p s j h8 h0 hj] at h
                simp at h
          · -- all remaining characters dispatch to `.next`, contradicting the fault
            by_cases h3 : fetch p s.ip = '+'
            · rw [show step p s = .next { s with
                  tape := writeTape s.tape s.dp (bumpUp (s.tape s.dp)), ip := s.ip + 1 } from by
                simp [step, h1, h2, h3]] at h
              simp at h
            · by_cases h4 : fetch p s.ip = '-'
              · rw [show step p s = .next { s with
                    tape := writeTape s.tape s.dp (bumpDown (s.tape s.dp)), ip := s.ip + 1 } from by
                  simp [step, h1, h2, h3, h4]] at h
                simp at h
              · by_cases h5 : fetch p s.ip = '.'
                · rw [show step p s = .next { s with
                      output := s.output ++ [s.tape s.dp], ip := s.ip + 1 } from by
                    simp [step, h1, h2, h3, h4, h5]] at h
                  simp at h
                · rw [show step p s = .next { s with ip := s.ip + 1 } from by
                    simp [step, h1, h2, h3, h4, h5, hcm, h7, h8]] at h
                  simp at h

lemma run_input_indep (p : List Char) (hc : ',' ∉ p) :
    ∀ (n : Nat) (s : State) (inp : List Nat),
      runWith step p n { s with input := inp } =
        ((runWith step p n s).1, { (runWith step p n s).2 with input := inp }) := by
  intro n
  induction n with
  | zero => intro s inp; rfl
  | succ n ih =>
    intro s inp
    rw [run_unfold, run_unfold]
    by_cases hnul : fetch p s.ip = nul
    · rw [if_pos hnul, if_pos hnul]
    · rw [if_neg hnul, if_neg hnul]
      cases hstep : step p s with
      | next s' =>
        rw [(step_input_indep p hc s inp).1 s' hstep]
        exact ih s' inp
      | fault i d =>
        rw [(step_input_indep p hc s inp).2 i d hstep]

/-- C7: running a balanced program that contains neither `,` nor `.`
from a fresh zero tape twice — with arbitrary (possibly different)
runtime input streams — yields the same control status and identical
final tape contents (and the same ip, dp, and output): the run is
deterministic. -/
theorem deterministic_run (p : List Char) (hb : balanced p) (hcm : ',' ∉ p)
    (hdot : '.' ∉ p) (n : Nat) (i1 i2 : List Nat) :
    (runWith step p n (initState i1)).1 = (runWith step p n (initState i2)).1 ∧
    (runWith step p n (initState i1)).2.tape = (runWith step p n (initState i2)).2.tape ∧
    (runWith step p n (initState i1)).2.ip = (runWith step p n (initState i2)).2.ip ∧
    (runWith step p n (initState i1)).2.dp = (runWith step p n (initState i2)).2.dp ∧
    (runWith step p n (initState i1)).2.output = (runWith step p n (initState i2)).2.output := by
  have key : runWith step p n (initState i1) =
      ((runWith step p n (initState i2)).1,
        { (runWith step p n (initState i2)).2 with input := i1 }) :=
    run_input_indep p hcm n (initState i2) i1
  rw [key]
  exact ⟨rfl, rfl, rfl, rfl, rfl⟩

/-- C7 witness: the program `+` run with two different input streams. -/
theorem deterministic_run_check :
    (runWith step ['+'] 1 (initState [])).1 = (runWith step ['+'] 1 (initState [5])).1 ∧
    (runWith step ['+'] 1 (initState [])).2.tape = (runWith step ['+'] 1 (initState [5])).2.tape ∧
    (runWith step ['+'] 1 (initState [])).2.ip = (runWith step ['+'] 1 (initState [5])).2.ip ∧
    (runWith step ['+'] 1 (initState [])).2.dp = (runWith step ['+'] 1 (initState [5])).2.dp ∧
    (runWith step ['+'] 1 (initState [])).2.output = (runWith step ['+'] 1 (initState [5])).2.output :=
  deterministic_run ['+'] (by decide) (by decide) (by decide) 1 [] [5]

/-! ### Claim C10 — jump-onto-bracket and jump-past-bracket engines are
observationally equivalent -/

lemma stepSpec_open_taken (p : List Char) (s : State) (j : Nat) (hc : fetch p s.ip = '[')
    (h0 : s.tape s.dp = 0) (hj : flookup p s.ip = some j) :
    stepSpec p s = .next { s with ip := j + 1 } := by
  simp [stepSpec, hc, h0, hj]

lemma stepSpec_close_taken (p : List Char) (s : State) (j : Nat) (hc : fetch p s.ip = ']')
    (h0 : s.tape s.dp ≠ 0) (hj : blookup p s.ip = some j) :
    stepSpec p s = .next { s with ip := j + 1 } := by
  simp [stepSpec, hc, h0, hj]

lemma stepSpec_eq_step (p : List Char) (s : State)
    (h1 : fetch p s.ip = '[' → s.tape s.dp ≠ 0)
    (h2 : fetch p s.ip = ']' → s.tape s.dp = 0) :
    stepSpec p s = step p s := by
  by_cases h7 : fetch p s.ip = '['
  · have h0 : s.tape s.dp ≠ 0 := h1 h7
    rw [step_open_fall p s h7 h0]
    simp [stepSpec, h7, h0]
  · by_cases h8 : fetch p s.ip = ']'
    · have h0 : s.tape s.dp = 0 := h2 h8
      rw [step_close_fall p s h8 h0]
      simp [stepSpec, h8, h0]
    · unfold stepSpec step
      simp [h7, h8]

lemma run_zero (stp : List Char → State → StepRes) (p : List Char) (s : State) :
    runWith stp p 0 s = (.running, s) := rfl

lemma run_halt (stp : List Char → State → StepRes) (p : List Char) (n : Nat) (s : State)
    (hnul : fetch p s.ip = nul) : runWith stp p (n + 1) s = (.halted, s) := by
  rw [run_unfold, if_pos hnul]

lemma run_next (stp : List Char → State → StepRes) (p : List Char) (n : Nat) (s s' : State)
    (hnul : fetch p s.ip ≠ nul) (hstep : stp p s = .next s') :
    runWith stp p (n + 1) s = runWith stp p n s' := by
  rw [run_unfold, if_neg hnul, hstep]

lemma run_fault (stp : List Char → State → StepRes) (p : List Char) (n : Nat) (s : State)
    (i d : Nat) (hnul : fetch p s.ip ≠ nul) (hstep : stp p s = .fault i d) :
    runWith stp p (n + 1) s = (.faulted, s) := by
  rw [run_unfold, if_neg hnul, hstep]

lemma src_to_spec (p : List Char) (hb : balanced p) :
    ∀ (n : Nat) (s t : State), runWith step p n s = (.halted, t) →
      ∃ m, runWith stepSpec p m s = (.halted, t) := by
  intro n
  induction n using Nat.strong_induction_on with
  | _ n ih =>
    intro s t h
    cases n with
    | zero => rw [run_zero] at h; simp at h
    | succ n' =>
      by_cases hnul : fetch p s.ip = nul
      · rw [run_halt step p n' s hnul] at h
        injection h with h1 h2
        exact ⟨1, by rw [run_halt stepSpec p 0 s hnul, h2]⟩
      · cases hstep : step p s with
        | fault i d =>
          rw [run_fault step p n' s i d hnul hstep] at h
          simp at h
        | next s' =>
          rw [run_next step p n' s s' hnul hstep] at h
          by_cases hopen : fetch p s.ip = '[' ∧ s.tape s.dp = 0
          · obtain ⟨j, hj, hij, hjl, hcj⟩ := flookup_matches p s.ip hb hopen.1
            have hsrc : step p s = .next { s with ip := j } :=
              step_open_taken p s j hopen.1 hopen.2 hj
            rw [hsrc] at hstep
            injection hstep with hs'
            subst hs'
            cases n' with
            | zero => rw [run_zero] at h; simp at h
            | succ n'' =>
              have hnul2 : fetch p ({ s with ip := j } : State).ip ≠ nul := by
                show fetch p j ≠ nul
                rw [hcj]; decide
              have hstep2 : step p ({ s with ip := j } : State) = .next { s with ip := j + 1 } :=
                step_close_fall p { s with ip := j } hcj hopen.2
              rw [run_next step p n'' _ _ hnul2 hstep2] at h
              obtain ⟨m, hm⟩ := ih n'' (by omega) _ _ h
              refine ⟨m + 1, ?_⟩
              rw [run_next stepSpec p m s _ hnul (stepSpec_open_taken p s j hopen.1 hopen.2 hj)]
              exact hm
          · by_cases hclose : fetch p s.ip = ']' ∧ s.tape s.dp ≠ 0
            · obtain ⟨j, hj, hij, hjl, hcj⟩ := blookup_matches p s.ip hb hclose.1
              have hsrc : step p s = .next { s with ip := j } :=
                step_close_taken p s j hclose.1 hclose.2 hj
              rw [hsrc] at hstep
              injection hstep with hs'
              subst hs'
              cases n' with
              | zero => rw [run_zero] at h; simp at h
              | succ n'' =>
                have hnul2 : fetch p ({ s with ip := j } : State).ip ≠ nul := by
                  show fetch p j ≠ nul
                  rw [hcj]; decide
                have hstep2 : step p ({ s with ip := j } : State) = .next { s with ip := j + 1 } :=
                  step_open_fall p { s with ip := j } hcj hclose.2
                rw [run_next step p n'' _ _ hnul2 hstep2] at h
                obtain ⟨m, hm⟩ := ih n'' (by omega) _ _ h
                refine ⟨m + 1, ?_⟩
                rw [run_next stepSpec p m s _ hnul
                  (stepSpec_close_taken p s j hclose.1 hclose.2 hj)]
                exact hm
            · have hagree : stepSpec p s = step p s :=
                stepSpec_eq_step p s (fun hi h0 => hopen ⟨hi, h0⟩)
                  (fun hi => not_not.mp (fun hnz => hclose ⟨hi, hnz⟩))
              obtain ⟨m, hm⟩ := ih n' (by omega) _ _ h
              refine ⟨m + 1, ?_⟩
              rw [run_next stepSpec p m s s' hnul (hagree.trans hstep)]
              exact hm

lemma spec_to_src (p : List Char) (hb : balanced p) :
    ∀ (m : Nat) (s t : State), runWith stepSpec p m s = (.halted, t) →
      ∃ n, runWith step p n s = (.halted, t) := by
  intro m
  induction m with
  | zero => intro s t h; rw [run_zero] at h; simp at h
  | succ m' ih =>
    intro s t h
    by_cases hnul : fetch p s.ip = nul
    · rw [run_halt stepSpec p m' s hnul] at h
      injection h with h1 h2
      exact ⟨1, by rw [run_halt step p 0 s hnul, h2]⟩
    · cases hstep : stepSpec p s with
      | fault i d =>
        rw [run_fault stepSpec p m' s i d hnul hstep] at h
        simp at h
      | next s' =>
        rw [run_next stepSpec p m' s s' hnul hstep] at h
        obtain ⟨n, hn⟩ := ih s' t h
        by_cases hopen : fetch p s.ip = '[' ∧ s.tape s.dp = 0
        · obtain ⟨j, hj, hij, hjl, hcj⟩ := flookup_matches p s.ip hb hopen.1
          have hspec : stepSpec p s = .next { s with ip := j + 1 } :=
            stepSpec_open_taken p s j hopen.1 hopen.2 hj
          rw [hspec] at hstep
          injection hstep with hs'
          subst hs'
          refine ⟨n + 2, ?_⟩
          have hnul2 : fetch p ({ s with ip := j } : State).ip ≠ nul := by
            show fetch p j ≠ nul
            rw [hcj]; decide
          have hstep2 : step p ({ s with ip := j } : State) = .next { s with ip := j + 1 } :=
            step_close_fall p { s with ip := j } hcj hopen.2
          rw [run_next step p (n + 1) s _ hnul (step_open_taken p s j hopen.1 hopen.2 hj)]
          rw [run_next step p n _ _ hnul2 hstep2]
          exact hn
        · by_cases hclose : fetch p s.ip = ']' ∧ s.tape s.dp ≠ 0
          · obtain ⟨j, hj, hij, hjl, hcj⟩ := blookup_matches p s.ip hb hclose.1
            have hspec : stepSpec p s = .next { s with ip := j + 1 } :=
              stepSpec_close_taken p s j hclose.1 hclose.2 hj
            rw [hspec] at hstep
            injection hstep with hs'
            subst hs'
            refine ⟨n + 2, ?_⟩
            have hnul2 : fetch p ({ s with ip := j } : State).ip ≠ nul := by
              show fetch p j ≠ nul
              rw [hcj]; decide
            have hstep2 : step p ({ s with ip := j } : State) = .next { s with ip := j + 1 } :=
              step_open_fall p { s with ip := j } hcj hclose.2
            rw [run_next step p (n + 1) s _ hnul (step_close_taken p s j hclose.1 hclose.2 hj)]
            rw [run_next step p n _ _ hnul2 hstep2]
            exact hn
          · have hagree : stepSpec p s = step p s :=
              stepSpec_eq_step p s (fun hi h0 => hopen ⟨hi, h0⟩)
                (fun hi => not_not.mp (fun hnz => hclose ⟨hi, hnz⟩))
            refine ⟨n + 1, ?_⟩
            rw [run_next step p n s s' hnul (hagree.symm.trans hstep)]
            exact hn

/-- C10: on a balanced program, the source engine (whose taken bracket
branches set ip to the index of the matching bracket itself) and the
spec engine (which sets ip one past the matching bracket) halt from the
same start exactly in the same cases and in the same final state — in
particular with the same final tape contents and the same output byte
sequence — because the re-dispatched bracket falls through with
ip += 1 under the same cell test. -/
theorem jump_target_refinement (p : List Char) (hb : balanced p) (input : List Nat)
    (t : State) :
    (∃ n, runWith step p n (initState input) = (.halted, t)) ↔
    (∃ m, runWith stepSpec p m (initState input) = (.halted, t)) :=
  ⟨fun hn => hn.elim (fun n h => src_to_spec p hb n (initState input) t h),
   fun hm => hm.elim (fun m h => spec_to_src p hb m (initState input) t h)⟩

/-- C10 witness: both engines halt the program `[]` in the state with
ip = 2 (zero tape, no output). -/
theorem jump_target_refinement_check :
    ∃ m, runWith stepSpec ['[', ']'] m (initState []) =
      (.halted, { initState [] with ip := 2 }) :=
  (jump_target_refinement ['[', ']'] (by decide) [] { initState [] with ip := 2 }).mp
    ⟨3, rfl⟩

end BF
